import Mathlib

/-
  Verification development for the retrieval core of the repository:
  the schema chunker (src/retrieval/chunk/chunks.py) and the two search
  strategies (src/retrieval/bm25_search.py, src/retrieval/semantic_search.py).

  Modelling conventions:
  - Python strings are Lean `String`/`List Char`; the regex machinery of
    `SchemaClassChunker` is embedded as an explicit scanner over `List Char`
    with the exact semantics of `re.findall`/`re.split` on the two patterns
    used by the source (character classes restricted to ASCII, which is the
    alphabet of schema files).
  - `rank_bm25.BM25Okapi.get_scores` is an external library call; it is kept
    abstract as a scoring function `List (List String) → List String → List ℚ`
    whose documented contract is to return one score per corpus document.
    Floating point numbers produced by it are modelled as rationals.
  - numpy embedding vectors and `np.linalg.norm`/`np.dot` arithmetic are
    modelled over the reals; `np.argsort` is modelled as a deterministic
    (stable) ascending argsort, which is one admissible behaviour of the
    unspecified-tie-order `np.argsort`.
  - Python list slicing `a[-k:]` (with the `k = 0` peculiarity that `a[-0:]`
    is the whole list) is modelled by `takeLastPy`.
  - Exceptions (`raise ValueError`) are modelled with `Except String`.
-/

/- ### Character classes of the regexes (`\s`, `\w` over the ASCII alphabet) -/

def isWS (c : Char) : Bool :=
  c = ' ' || c = '\t' || c = '\n' || c = '\r' || c = '\x0b' || c = '\x0c'

def isWordChar (c : Char) : Bool := c.isAlphanum || c = '_'

/- ### The chunker regex `(class\s+\w+\(Base\):[\s\S]*?)(?=\nclass\s+\w+\(Base\):|\Z)`
   from `SchemaClassChunker.CLASS_PATTERN`. -/

def kwClass : List Char := ['c', 'l', 'a', 's', 's']

def kwBase : List Char := ['(', 'B', 'a', 's', 'e', ')', ':']

/- `matchHeader cs = some h` iff `cs` begins with a match of
   `class\s+\w+\(Base\):` of length `h` (the runs of `\s+` and `\w+` are the
   maximal ones; since the two classes are disjoint and the pattern continues
   with the literal `(Base):`, this is exactly the regex semantics). -/
def matchHeader (cs : List Char) : Option Nat :=
  if kwClass.isPrefixOf cs then
    let r1 := cs.drop 5
    let w := r1.takeWhile isWS
    if w.length = 0 then none
    else
      let r2 := r1.drop w.length
      let n := r2.takeWhile isWordChar
      if n.length = 0 then none
      else if kwBase.isPrefixOf (r2.drop n.length) then
        some (5 + w.length + n.length + 7)
      else none
  else none

/- Does `cs` begin with `\nclass\s+\w+\(Base\):` (the lookahead of the
   chunker pattern)? -/
def NLHeader (cs : List Char) : Bool :=
  match cs with
  | c :: rest => c = '\n' && (matchHeader rest).isSome
  | [] => false

/- Length of the lazy `[\s\S]*?` run: number of characters consumed until the
   first position satisfying the lookahead `(?=\nclass\s+\w+\(Base\):|\Z)`. -/
def findStop (cs : List Char) : Nat :=
  match cs with
  | [] => 0
  | _ :: rest => if NLHeader cs then 0 else 1 + findStop rest

/- `re.findall` scanning loop for `CLASS_PATTERN`: at each position try to
   match; on success record the match and resume at its end, otherwise
   advance one character.  Structured with explicit fuel (one unit per
   consumed character) so that the recursion is structural. -/
def scanFuel : Nat → List Char → List (List Char)
  | 0, _ => []
  | _ + 1, [] => []
  | fuel + 1, c :: rest =>
    match matchHeader (c :: rest) with
    | some hl =>
      List.take (hl + findStop (List.drop hl (c :: rest))) (c :: rest) ::
        scanFuel fuel
          (List.drop (hl + findStop (List.drop hl (c :: rest))) (c :: rest))
    | none => scanFuel fuel rest

def scan (cs : List Char) : List (List Char) := scanFuel cs.length cs

/- Python `str.strip()` (whitespace strip on both ends). -/

def rstrip (cs : List Char) : List Char := (cs.reverse.dropWhile isWS).reverse

def pyStrip (cs : List Char) : List Char := rstrip (cs.dropWhile isWS)

/- ### The member-boundary regex `\n\s{4}(?=#|\w)` of `_split_large_block`. -/

def splitBoundary (cs : List Char) : Bool :=
  match cs with
  | a :: b :: c :: d :: e :: f :: _ =>
    a = '\n' && isWS b && isWS c && isWS d && isWS e &&
      (f = '#' || isWordChar f)
  | _ => false

def boundaryStop (cs : List Char) : Nat :=
  match cs with
  | [] => 0
  | _ :: rest => if splitBoundary cs then 0 else 1 + boundaryStop rest

/- `re.split(r"\n\s{4}(?=#|\w)", block)`: cut at every non-overlapping match
   (each match consumes 5 characters: the newline and the 4 whitespace), the
   lookahead character stays.  Fuel is one unit per consumed character. -/
def resplitFuel : Nat → List Char → List (List Char)
  | 0, cs => [cs]
  | fuel + 1, cs =>
    if boundaryStop cs < cs.length then
      List.take (boundaryStop cs) cs ::
        resplitFuel fuel (List.drop (boundaryStop cs + 5) cs)
    else [cs]

def resplit (cs : List Char) : List (List Char) := resplitFuel cs.length cs

/- `"\n".join(...)` on character lists. -/
def joinNL : List (List Char) → List Char
  | [] => []
  | [x] => x
  | x :: xs => x ++ '\n' :: joinNL xs

/- The greedy packing loop of `_split_large_block`: close the running
   sub-chunk exactly when adding the next member would exceed the limit, and
   restart with the header. -/
def packGo (maxSize : Nat) (header : List Char) :
    List (List Char) → List (List Char) → List (List Char)
  | [], running => [joinNL running]
  | part :: rest, running =>
    if maxSize < (running.map List.length).sum + part.length then
      joinNL running :: packGo maxSize header rest [header, part]
    else
      packGo maxSize header rest (running ++ [part])

/- `SchemaClassChunker._split_large_block` -/
def SchemaClassChunker.split_large_block (maxSize : Nat) (block : List Char) :
    List (List Char) :=
  packGo maxSize ((resplit block).headD []) (resplit block).tail
    [(resplit block).headD []]

/- `SchemaClassChunker.chunk` on character lists.  `max_chunk_size` is
   `Option Nat`; Python truthiness makes both `None` and `0` disable
   splitting. -/
def chunkL (maxSize : Option Nat) (text : List Char) : List (List Char) :=
  (scan text).flatMap fun block =>
    let clean_block := pyStrip block
    match maxSize with
    | some m => if m ≠ 0 ∧ m < clean_block.length then
        SchemaClassChunker.split_large_block m clean_block
      else [clean_block]
    | none => [clean_block]

def SchemaClassChunker.chunk (maxSize : Option Nat) (text : String) :
    List String :=
  (chunkL maxSize text.toList).map fun l => String.mk l

/- `"\n".join(chunks)` at the `String` level. -/
def newlineJoin (chunks : List String) : String :=
  String.mk (joinNL (chunks.map String.toList))

/- ### Search strategies -/

/- `doc.lower().split()`: lowercase, then split on whitespace runs. -/
def pyTokenize (s : String) : List String :=
  (s.toLower.split fun c => c.isWhitespace).filter fun t => t ≠ ""

/- One entry of the result list `{"content": ..., "score": ..., "index": ...}`. -/
structure SearchResult (α : Type) where
  content : String
  score : α
  index : Nat
deriving DecidableEq, Repr

/- Python `a[-k:]` for a natural `k` (`a[-0:]` is all of `a`). -/
def takeLastPy {α : Type} (k : Nat) (l : List α) : List α :=
  if k = 0 then l else l.drop (l.length - k)

/- Model of `np.argsort(scores)`: the indices `0, ..., n-1` sorted by
   ascending score (ties resolved by ascending index, one admissible
   deterministic behaviour). -/
def argsort {α : Type} [LinearOrder α] (z : α) (scores : List α) : List Nat :=
  List.insertionSort
    (fun i j => scores.getD i z < scores.getD j z ∨
      (scores.getD i z = scores.getD j z ∧ i ≤ j))
    (List.range scores.length)

/- `np.argsort(scores)[-k:][::-1]` -/
def topKIndices {α : Type} [LinearOrder α] (z : α) (scores : List α) (k : Nat) :
    List Nat :=
  (takeLastPy k (argsort z scores)).reverse

def notBuiltError : String := "Index not built. Call build_index() first."

/- ### BM25Search (src/retrieval/bm25_search.py) -/

structure BM25Search where
  documents : List String
  tokenized_docs : List (List String)
  bm25 : Option (List (List String))

def BM25Search.init : BM25Search := ⟨[], [], none⟩

def BM25Search.build_index (_st : BM25Search) (documents : List String) :
    BM25Search :=
  ⟨documents, documents.map pyTokenize, some (documents.map pyTokenize)⟩

/- `search`, parameterised by the external `BM25Okapi.get_scores`
   (first argument: the tokenized corpus the `BM25Okapi` object was built
   from; second: the tokenized query). -/
def BM25Search.search (st : BM25Search)
    (get_scores : List (List String) → List String → List ℚ)
    (query : String) (k : Nat) : Except String (List (SearchResult ℚ)) :=
  match st.bm25 with
  | none => .error notBuiltError
  | some corpus =>
    let scores := get_scores corpus (pyTokenize query)
    let top_indices := topKIndices 0 scores k
    .ok ((top_indices.filter fun idx => 0 < scores.getD idx 0).map fun idx =>
      ⟨st.documents.getD idx "", scores.getD idx 0, idx⟩)

/- The contract of `rank_bm25`: `get_scores` returns one score per corpus
   document. -/
def ScoresPerDoc (get_scores : List (List String) → List String → List ℚ) :
    Prop :=
  ∀ corpus tq, (get_scores corpus tq).length = corpus.length

/- ### SemanticSearch (src/retrieval/semantic_search.py) -/

/- `np.dot` on embedding vectors. -/
def dotList (a b : List ℝ) : ℝ := (List.zipWith (fun x y => x * y) a b).sum

/- `np.linalg.norm` -/
noncomputable def npNorm (a : List ℝ) : ℝ := Real.sqrt (dotList a a)

/- The inline cosine similarity of `SemanticSearch.search`:
   `np.dot(q, d) / (np.linalg.norm(q) * np.linalg.norm(d) + 1e-9)`. -/
noncomputable def cosineSimilarity (q d : List ℝ) : ℝ :=
  dotList q d / (npNorm q * npNorm d + 1e-9)

structure SemanticSearch where
  documents : List String
  embeddings : List (List ℝ)
  embedding_model : Option (String → List ℝ)

def SemanticSearch.init (embedding_model : Option (String → List ℝ)) :
    SemanticSearch :=
  ⟨[], [], embedding_model⟩

def SemanticSearch.build_index (st : SemanticSearch)
    (documents : List String) : Except String SemanticSearch :=
  match st.embedding_model with
  | none => .error "Embedding model not provided in __init__"
  | some f => .ok ⟨documents, documents.map f, some f⟩

noncomputable def SemanticSearch.search (st : SemanticSearch) (query : String)
    (k : Nat) : Except String (List (SearchResult ℝ)) :=
  if st.embeddings.length = 0 then .error notBuiltError
  else
    match st.embedding_model with
    | none => .error "embedding model missing"
    | some f =>
      let query_embedding := f query
      let similarities := st.embeddings.map fun d =>
        cosineSimilarity query_embedding d
      let top_indices := topKIndices 0 similarities k
      .ok (top_indices.map fun idx =>
        ⟨st.documents.getD idx "", similarities.getD idx 0, idx⟩)

/- A simple concrete scorer satisfying the `rank_bm25` contract (used to
   instantiate theorems at concrete inputs). -/
def constScores : List (List String) → List String → List ℚ :=
  fun corpus _ => corpus.map fun _ => 1

/- A simple concrete embedding model (used to instantiate theorems at
   concrete inputs). -/
noncomputable def constEmbed : String → List ℝ := fun _ => [1]

/- A chunk emitted by the scanner, after stripping: it starts with a header
   match and contains no internal occurrence of `\nclass\s+\w+\(Base\):`.
   These are exactly the properties that make rescanning reproduce it. -/
def Clean (b : List Char) : Prop :=
  (∃ h, matchHeader b = some h) ∧ ∀ i, 1 ≤ i → NLHeader (b.drop i) = false

/- The decomposition `class` ++ whitespace-run ++ word-run ++ `(Base):` ++ rest
   described by a successful `matchHeader`. -/
def HeaderParts (cs : List Char) (h : Nat) : Prop :=
  ∃ w n r, cs = kwClass ++ w ++ n ++ kwBase ++ r ∧ w ≠ [] ∧
    (∀ c ∈ w, isWS c = true) ∧ n ≠ [] ∧ (∀ c ∈ n, isWordChar c = true) ∧
    h = 5 + w.length + n.length + 7

/- ### Generic facts about the `argsort`/slice/reverse pipeline -/

theorem argsort_perm {α : Type} [LinearOrder α] (z : α) (scores : List α) :
    (argsort z scores).Perm (List.range scores.length) :=
  List.perm_insertionSort _ _

theorem argsort_length {α : Type} [LinearOrder α] (z : α) (scores : List α) :
    (argsort z scores).length = scores.length := by
  simpa using (argsort_perm z scores).length_eq

theorem mem_argsort {α : Type} [LinearOrder α] (z : α) (scores : List α)
    (i : Nat) : i ∈ argsort z scores ↔ i < scores.length := by
  rw [(argsort_perm z scores).mem_iff, List.mem_range]

theorem argsort_sorted {α : Type} [LinearOrder α] (z : α) (scores : List α) :
    (argsort z scores).Pairwise
      (fun i j => scores.getD i z ≤ scores.getD j z) := by
  haveI : IsTotal Nat (fun i j => scores.getD i z < scores.getD j z ∨
      (scores.getD i z = scores.getD j z ∧ i ≤ j)) := by
    constructor
    intro a b
    rcases lt_trichotomy (scores.getD a z) (scores.getD b z) with h | h | h
    · exact Or.inl (Or.inl h)
    · rcases Nat.le_total a b with hab | hab
      · exact Or.inl (Or.inr ⟨h, hab⟩)
      · exact Or.inr (Or.inr ⟨h.symm, hab⟩)
    · exact Or.inr (Or.inl h)
  haveI : IsTrans Nat (fun i j => scores.getD i z < scores.getD j z ∨
      (scores.getD i z = scores.getD j z ∧ i ≤ j)) := by
    constructor
    rintro a b c (hab | ⟨hab, hab'⟩) (hbc | ⟨hbc, hbc'⟩)
    · exact Or.inl (hab.trans hbc)
    · exact Or.inl (hbc ▸ hab)
    · exact Or.inl (hab ▸ hbc)
    · exact Or.inr ⟨hab.trans hbc, hab'.trans hbc'⟩
  have h := List.sorted_insertionSort
    (fun i j => scores.getD i z < scores.getD j z ∨
      (scores.getD i z = scores.getD j z ∧ i ≤ j))
    (List.range scores.length)
  refine h.imp ?_
  rintro a b (hab | ⟨hab, _⟩)
  · exact hab.le
  · exact hab.le

theorem takeLastPy_sublist {α : Type} (k : Nat) (l : List α) :
    (takeLastPy k l).Sublist l := by
  unfold takeLastPy
  split
  · exact List.Sublist.refl l
  · exact List.drop_sublist _ l

theorem takeLastPy_length {α : Type} {k : Nat} (hk : 1 ≤ k) (l : List α) :
    (takeLastPy k l).length = min k l.length := by
  unfold takeLastPy
  rw [if_neg (by omega)]
  rw [List.length_drop]
  omega

theorem takeLastPy_split {α : Type} (k : Nat) (l : List α) :
    ∃ t, l = t ++ takeLastPy k l := by
  unfold takeLastPy
  split
  · exact ⟨[], rfl⟩
  · exact ⟨l.take (l.length - k), (List.take_append_drop _ l).symm⟩

theorem mem_topKIndices {α : Type} [LinearOrder α] {z : α} {scores : List α}
    {k i : Nat} (h : i ∈ topKIndices z scores k) : i < scores.length := by
  rw [topKIndices, List.mem_reverse] at h
  exact (mem_argsort z scores i).mp ((takeLastPy_sublist _ _).mem h)

theorem topKIndices_length {α : Type} [LinearOrder α] (z : α)
    (scores : List α) {k : Nat} (hk : 1 ≤ k) :
    (topKIndices z scores k).length = min k scores.length := by
  rw [topKIndices, List.length_reverse, takeLastPy_length hk, argsort_length]

theorem topKIndices_sorted {α : Type} [LinearOrder α] (z : α)
    (scores : List α) (k : Nat) :
    (topKIndices z scores k).Pairwise
      (fun i j => scores.getD j z ≤ scores.getD i z) := by
  rw [topKIndices, List.pairwise_reverse]
  exact ((argsort_sorted z scores).sublist (takeLastPy_sublist _ _))

theorem topKIndices_maximal {α : Type} [LinearOrder α] {z : α}
    {scores : List α} {k i j : Nat} (hi : i ∈ topKIndices z scores k)
    (hj : j < scores.length) (hj2 : j ∉ topKIndices z scores k) :
    scores.getD j z ≤ scores.getD i z := by
  obtain ⟨t, ht⟩ := takeLastPy_split k (argsort z scores)
  rw [topKIndices, List.mem_reverse] at hi hj2
  have hjarg : j ∈ argsort z scores := (mem_argsort z scores j).mpr hj
  rw [ht, List.mem_append] at hjarg
  have hjt : j ∈ t := hjarg.resolve_right hj2
  have hp := argsort_sorted z scores
  rw [ht, List.pairwise_append] at hp
  exact hp.2.2 j hjt i hi

theorem topKIndices_nodup {α : Type} [LinearOrder α] (z : α)
    (scores : List α) (k : Nat) : (topKIndices z scores k).Nodup := by
  rw [topKIndices, List.nodup_reverse]
  exact ((argsort_perm z scores).nodup_iff.mpr (List.nodup_range _)).sublist
    (takeLastPy_sublist _ _)

theorem get?_eq_some_getD {α : Type} {l : List α} {i : Nat} (d : α)
    (h : i < l.length) : l.get? i = some (l.getD i d) := by
  induction l generalizing i with
  | nil => simp at h
  | cons a t ih =>
    cases i with
    | zero => simp
    | succ n =>
      simp only [List.length_cons, Nat.succ_lt_succ_iff] at h
      simpa using ih h

/- ### BM25Search: behaviour of `search` after `build_index` -/

theorem BM25Search.search_build (st0 : BM25Search) (docs : List String)
    (gs : List (List String) → List String → List ℚ) (q : String) (k : Nat) :
    BM25Search.search (BM25Search.build_index st0 docs) gs q k =
      .ok (((topKIndices 0 (gs (docs.map pyTokenize) (pyTokenize q)) k).filter
          fun idx =>
            0 < (gs (docs.map pyTokenize) (pyTokenize q)).getD idx 0).map
        fun idx =>
          ⟨docs.getD idx "",
            (gs (docs.map pyTokenize) (pyTokenize q)).getD idx 0, idx⟩) :=
  rfl

theorem bm25_results_shape {st0 : BM25Search} {docs : List String}
    {gs : List (List String) → List String → List ℚ} {q : String} {k : Nat}
    {rs : List (SearchResult ℚ)}
    (hrs : BM25Search.search (BM25Search.build_index st0 docs) gs q k =
      .ok rs) :
    rs = ((topKIndices 0 (gs (docs.map pyTokenize) (pyTokenize q)) k).filter
        fun idx =>
          0 < (gs (docs.map pyTokenize) (pyTokenize q)).getD idx 0).map
      fun idx =>
        ⟨docs.getD idx "",
          (gs (docs.map pyTokenize) (pyTokenize q)).getD idx 0, idx⟩ := by
  rw [BM25Search.search_build] at hrs
  exact (Except.ok.injEq _ _).mp hrs.symm

/- ### Claim C2: search before build_index -/

/-- C2: on a freshly constructed `BM25Search` or `SemanticSearch` instance,
`search` fails with the "not built" `ValueError` for every query and every
`k`, independently of the scoring function / embedding model (so neither
scoring nor embedding is ever invoked). -/
theorem C2_search_before_build_raises :
    (∀ (gs : List (List String) → List String → List ℚ) (q : String)
      (k : Nat), BM25Search.search BM25Search.init gs q k =
        .error notBuiltError) ∧
    (∀ (model : Option (String → List ℝ)) (q : String) (k : Nat),
      SemanticSearch.search (SemanticSearch.init model) q k =
        .error notBuiltError) := by
  constructor
  · intro gs q k
    rfl
  · intro model q k
    rfl

/- ### Claim C3: BM25 result properties -/

/-- C3 (amended): for every indexed corpus, query, and `k ≥ 1`, every result
returned by `BM25Search.search` has a strictly positive score, the returned
scores are non-increasing, and at most `k` results are returned; this holds
for every scoring function.  The restriction to `k ≥ 1` is forced by the
Python slice `[-k:]`, which for `k = 0` selects all documents. -/
theorem C3_bm25_positive_sorted_at_most_k
    (gs : List (List String) → List String → List ℚ) (docs : List String)
    (q : String) (k : Nat) (rs : List (SearchResult ℚ)) (hk : 1 ≤ k)
    (hrs : BM25Search.search (BM25Search.build_index BM25Search.init docs)
      gs q k = .ok rs) :
    (∀ r ∈ rs, 0 < r.score) ∧
    rs.Pairwise (fun a b => b.score ≤ a.score) ∧ rs.length ≤ k := by
  have hshape := bm25_results_shape hrs
  set scores := gs (docs.map pyTokenize) (pyTokenize q) with hscores
  refine ⟨?_, ?_, ?_⟩
  · intro r hr
    rw [hshape] at hr
    obtain ⟨idx, hidx, hr⟩ := List.mem_map.mp hr
    have := (List.mem_filter.mp hidx).2
    rw [← hr]
    exact of_decide_eq_true this
  · rw [hshape]
    rw [List.pairwise_map]
    exact ((topKIndices_sorted 0 scores k).sublist (List.filter_sublist _))
  · rw [hshape, List.length_map]
    calc ((topKIndices 0 scores k).filter _).length
        ≤ (topKIndices 0 scores k).length := List.length_filter_le _ _
      _ = min k scores.length := topKIndices_length 0 scores hk
      _ ≤ k := Nat.min_le_left _ _

/-- C3 counterexample (to the unamended claim): with one indexed document,
a scorer giving it score 1, and `k = 0`, the search returns one result,
not at most `k = 0` — `np.argsort(scores)[-0:]` is the whole array. -/
theorem C3_counterexample_k_zero :
    BM25Search.search (BM25Search.build_index BM25Search.init ["a"])
        constScores "a" 0 = .ok [⟨"a", 1, 0⟩] ∧
    ¬ ([(⟨"a", 1, 0⟩ : SearchResult ℚ)].length ≤ 0) := by
  constructor
  · rfl
  · decide

/-- C3 witness: the amended theorem instantiated at a concrete corpus,
scorer, query and `k = 1`. -/
theorem C3_witness :
    1 ≤ 1 ∧
    BM25Search.search (BM25Search.build_index BM25Search.init ["a"])
        constScores "a" 1 = .ok [⟨"a", 1, 0⟩] ∧
    ((∀ r ∈ [(⟨"a", 1, 0⟩ : SearchResult ℚ)], 0 < r.score) ∧
      [(⟨"a", 1, 0⟩ : SearchResult ℚ)].Pairwise
        (fun a b => b.score ≤ a.score) ∧
      [(⟨"a", 1, 0⟩ : SearchResult ℚ)].length ≤ 1) := by
  refine ⟨le_refl 1, rfl, ?_⟩
  exact C3_bm25_positive_sorted_at_most_k constScores ["a"] "a" 1 _
    (le_refl 1) rfl

/- ### Claim C9: empty-corpus lexical search -/

/-- C9: `BM25Search.build_index []` succeeds, and every subsequent
`search(query, k)` returns the empty result sequence (no error), for every
scorer satisfying the `rank_bm25` one-score-per-document contract.  (The
`BM25Okapi` constructor itself is external to the repository and is
modelled as total, per the spec's description of index building.) -/
theorem C9_empty_corpus_bm25_search_empty
    (gs : List (List String) → List String → List ℚ) (q : String) (k : Nat)
    (hlen : ScoresPerDoc gs) :
    BM25Search.search (BM25Search.build_index BM25Search.init []) gs q k =
      .ok [] := by
  rw [BM25Search.search_build]
  have h0 : gs ([].map pyTokenize) (pyTokenize q) = [] :=
    List.length_eq_zero.mp (hlen _ _)
  rw [List.map_nil] at h0 ⊢
  rw [h0]
  have htop : topKIndices (0 : ℚ) [] k = [] := by
    rw [topKIndices]
    unfold takeLastPy
    split <;> simp [argsort]
  rw [htop]
  rfl

/-- C9 witness: the theorem instantiated at the concrete scorer
`constScores`, query `"x"` and `k = 3`. -/
theorem C9_witness :
    ScoresPerDoc constScores ∧
    BM25Search.search (BM25Search.build_index BM25Search.init [])
      constScores "x" 3 = .ok [] := by
  have hlen : ScoresPerDoc constScores := by
    intro corpus tq
    simp [constScores]
  exact ⟨hlen, C9_empty_corpus_bm25_search_empty constScores "x" 3 hlen⟩

/- ### SemanticSearch: behaviour of `build_index` and `search` -/

theorem sem_build_shape {st0 : SemanticSearch} {docs : List String}
    {st : SemanticSearch}
    (hb : SemanticSearch.build_index st0 docs = .ok st) :
    ∃ f, st0.embedding_model = some f ∧
      st = ⟨docs, docs.map f, some f⟩ := by
  rcases hm : st0.embedding_model with _ | f
  · rw [SemanticSearch.build_index, hm] at hb
    exact absurd hb (by simp)
  · rw [SemanticSearch.build_index, hm] at hb
    exact ⟨f, rfl, ((Except.ok.injEq _ _).mp hb).symm⟩

theorem sem_results_shape {st : SemanticSearch} {f : String → List ℝ}
    {q : String} {k : Nat} {rs : List (SearchResult ℝ)}
    (hm : st.embedding_model = some f)
    (hs : SemanticSearch.search st q k = .ok rs) :
    st.embeddings.length ≠ 0 ∧
    rs = (topKIndices 0
        (st.embeddings.map fun d => cosineSimilarity (f q) d) k).map
      fun idx =>
        ⟨st.documents.getD idx "",
          (st.embeddings.map fun d => cosineSimilarity (f q) d).getD idx 0,
          idx⟩ := by
  by_cases h0 : st.embeddings.length = 0
  · rw [SemanticSearch.search, if_pos h0] at hs
    exact absurd hs (by simp)
  · rw [SemanticSearch.search, if_neg h0] at hs
    rw [hm] at hs
    exact ⟨h0, ((Except.ok.injEq _ _).mp hs).symm⟩

/- ### Claim C10: empty semantic index is indistinguishable from unbuilt -/

/-- C10: `SemanticSearch.build_index []` succeeds (with an embedding model
present), but every subsequent `search` raises the "not built" error rather
than returning an empty result sequence, because the not-built check tests
`len(self.embeddings) == 0` rather than whether `build_index` was called. -/
theorem C10_semantic_empty_index_looks_unbuilt (f : String → List ℝ)
    (q : String) (k : Nat) :
    SemanticSearch.build_index (SemanticSearch.init (some f)) [] =
      .ok ⟨[], [], some f⟩ ∧
    SemanticSearch.search ⟨[], [], some f⟩ q k = .error notBuiltError := by
  exact ⟨rfl, rfl⟩

/- ### Claim C4: semantic search returns the top-k without filtering -/

/-- C4 (amended): for every indexed *nonempty* corpus of `n` documents,
query, and `k ≥ 1`, `SemanticSearch.search` returns exactly `min k n`
results — the `k` documents of highest cosine similarity, in non-increasing
score order — with no positivity filter.  The two restrictions are forced
by the code: for the empty corpus `search` raises the "not built" error
(see C10), and for `k = 0` the Python slice `[-0:]` selects all `n`
documents. -/
theorem C4_semantic_top_k (f : String → List ℝ) (docs : List String)
    (q : String) (k : Nat) (st : SemanticSearch) (rs : List (SearchResult ℝ))
    (hb : SemanticSearch.build_index (SemanticSearch.init (some f)) docs =
      .ok st)
    (hs : SemanticSearch.search st q k = .ok rs) (hk : 1 ≤ k) :
    rs.length = min k docs.length ∧
    rs.Pairwise (fun a b => b.score ≤ a.score) ∧
    (∀ r ∈ rs, ∀ j, j < docs.length → (∀ r2 ∈ rs, r2.index ≠ j) →
      ((docs.map f).map fun d => cosineSimilarity (f q) d).getD j 0 ≤
        r.score) := by
  obtain ⟨f', hf', hst⟩ := sem_build_shape hb
  have hf : f = f' := by
    simpa [SemanticSearch.init] using hf'
  subst hf
  subst hst
  obtain ⟨-, hshape⟩ := sem_results_shape (f := f) rfl hs
  simp only at hshape
  set sims := (docs.map f).map fun d => cosineSimilarity (f q) d with hsims
  have hlen : sims.length = docs.length := by simp [hsims]
  refine ⟨?_, ?_, ?_⟩
  · rw [hshape, List.length_map, topKIndices_length 0 sims hk, hlen]
  · rw [hshape, List.pairwise_map]
    exact topKIndices_sorted 0 sims k
  · intro r hr j hj hnotin
    rw [hshape] at hr
    obtain ⟨idx, hidx, hr⟩ := List.mem_map.mp hr
    have hjtop : j ∉ topKIndices 0 sims k := by
      intro hmem
      refine hnotin ⟨docs.getD j "", sims.getD j 0, j⟩ ?_ rfl
      rw [hshape]
      exact List.mem_map.mpr ⟨j, hmem, rfl⟩
    have := topKIndices_maximal hidx (hlen ▸ hj) hjtop
    rw [← hr]
    exact this

/-- C4 counterexample (to the unamended claim, which quantified over every
indexed corpus and every `k`): (a) with one indexed document and `k = 0`,
semantic search returns 1 result, not `min 0 1 = 0` (the Python slice
`[-0:]` selects everything); (b) with the empty indexed corpus, search
raises the "not built" error instead of returning `min k 0 = 0` results. -/
theorem C4_counterexample :
    (SemanticSearch.search ⟨["a"], [[1]], some constEmbed⟩ "a" 0 =
      .ok [⟨"a", cosineSimilarity (constEmbed "a") [1], 0⟩] ∧
      ([(⟨"a", cosineSimilarity (constEmbed "a") [1], 0⟩ :
        SearchResult ℝ)].length ≠ min 0 1)) ∧
    (SemanticSearch.build_index (SemanticSearch.init (some constEmbed)) [] =
      .ok ⟨[], [], some constEmbed⟩ ∧
      SemanticSearch.search ⟨[], [], some constEmbed⟩ "x" 3 =
        .error notBuiltError) := by
  exact ⟨⟨rfl, by decide⟩, ⟨rfl, rfl⟩⟩

/-- C4 witness: the amended theorem instantiated at a concrete embedding
model, corpus, query and `k = 1`. -/
theorem C4_witness :
    SemanticSearch.build_index (SemanticSearch.init (some constEmbed))
      ["a"] = .ok ⟨["a"], [[1]], some constEmbed⟩ ∧
    SemanticSearch.search ⟨["a"], [[1]], some constEmbed⟩ "a" 1 =
      .ok [⟨"a", cosineSimilarity (constEmbed "a") [1], 0⟩] ∧
    1 ≤ 1 ∧
    (([(⟨"a", cosineSimilarity (constEmbed "a") [1], 0⟩ :
        SearchResult ℝ)].length = min 1 (["a"] : List String).length) ∧
      [(⟨"a", cosineSimilarity (constEmbed "a") [1], 0⟩ :
        SearchResult ℝ)].Pairwise (fun a b => b.score ≤ a.score) ∧
      (∀ r ∈ [(⟨"a", cosineSimilarity (constEmbed "a") [1], 0⟩ :
          SearchResult ℝ)], ∀ j, j < (["a"] : List String).length →
        (∀ r2 ∈ [(⟨"a", cosineSimilarity (constEmbed "a") [1], 0⟩ :
            SearchResult ℝ)], r2.index ≠ j) →
        (((["a"] : List String).map constEmbed).map fun d =>
          cosineSimilarity (constEmbed "a") d).getD j 0 ≤ r.score)) := by
  refine ⟨rfl, rfl, le_refl 1, ?_⟩
  exact C4_semantic_top_k constEmbed ["a"] "a" 1 ⟨["a"], [[1]], some constEmbed⟩
    _ rfl rfl (le_refl 1)

/- ### Claim C1: positional stability of the index -/

/-- C1: for every list of documents passed to `build_index` (of either
`BM25Search` or `SemanticSearch`, starting from any prior state) and every
subsequent `search` call, every returned result's `index` field `i`
satisfies that the result's `content` field equals the `i`-th document of
the list passed to `build_index`.  (For BM25 the external scorer is assumed
to return one score per corpus document, the `rank_bm25` contract.) -/
theorem C1_positional_stability :
    (∀ (st0 : BM25Search)
      (gs : List (List String) → List String → List ℚ)
      (docs : List String) (q : String) (k : Nat)
      (rs : List (SearchResult ℚ)) (r : SearchResult ℚ),
      ScoresPerDoc gs →
      BM25Search.search (BM25Search.build_index st0 docs) gs q k = .ok rs →
      r ∈ rs → docs.get? r.index = some r.content) ∧
    (∀ (st0 : SemanticSearch) (docs : List String) (q : String) (k : Nat)
      (st : SemanticSearch) (rs : List (SearchResult ℝ))
      (r : SearchResult ℝ),
      SemanticSearch.build_index st0 docs = .ok st →
      SemanticSearch.search st q k = .ok rs →
      r ∈ rs → docs.get? r.index = some r.content) := by
  constructor
  · intro st0 gs docs q k rs r hlen hrs hr
    rw [bm25_results_shape hrs] at hr
    obtain ⟨idx, hidx, hr⟩ := List.mem_map.mp hr
    have hmem := (List.mem_filter.mp hidx).1
    have hidxlt : idx < docs.length := by
      have := mem_topKIndices hmem
      rwa [hlen, List.length_map] at this
    rw [← hr]
    exact get?_eq_some_getD "" hidxlt
  · intro st0 docs q k st rs r hb hs hr
    obtain ⟨f, hf, hst⟩ := sem_build_shape hb
    subst hst
    obtain ⟨-, hshape⟩ := sem_results_shape (f := f) rfl hs
    simp only at hshape
    rw [hshape] at hr
    obtain ⟨idx, hidx, hr⟩ := List.mem_map.mp hr
    have hidxlt : idx < docs.length := by
      have := mem_topKIndices hidx
      rwa [List.length_map, List.length_map] at this
    rw [← hr]
    exact get?_eq_some_getD "" hidxlt

/-- C1 witness: the theorem instantiated, for both engines, at a one-document
corpus with a concrete scorer / embedding model. -/
theorem C1_witness :
    ScoresPerDoc constScores ∧
    BM25Search.search (BM25Search.build_index BM25Search.init ["a"])
      constScores "a" 1 = .ok [⟨"a", 1, 0⟩] ∧
    (["a"] : List String).get? (0 : Nat) = some "a" ∧
    SemanticSearch.build_index (SemanticSearch.init (some constEmbed))
      ["a"] = .ok ⟨["a"], [[1]], some constEmbed⟩ ∧
    SemanticSearch.search ⟨["a"], [[1]], some constEmbed⟩ "a" 1 =
      .ok [⟨"a", cosineSimilarity (constEmbed "a") [1], 0⟩] := by
  have hlen : ScoresPerDoc constScores := by
    intro corpus tq
    simp [constScores]
  refine ⟨hlen, rfl, ?_, rfl, rfl⟩
  have h1 := C1_positional_stability.1 BM25Search.init constScores ["a"] "a" 1
    [⟨"a", 1, 0⟩] ⟨"a", 1, 0⟩ hlen rfl (by decide)
  exact h1

/- ### Claim C5: totality and boundedness of the cosine similarity -/

theorem dotList_eq_sum (a b : List ℝ) :
    dotList a b = ∑ i ∈ Finset.range (min a.length b.length),
      a.getD i 0 * b.getD i 0 := by
  induction a generalizing b with
  | nil => simp [dotList]
  | cons x as ih =>
    cases b with
    | nil => simp [dotList]
    | cons y bs =>
      have hmin : min (x :: as).length (y :: bs).length =
          min as.length bs.length + 1 := by
        simp [Nat.succ_min_succ]
      rw [hmin, Finset.sum_range_succ']
      simp only [List.getD_cons_succ, List.getD_cons_zero]
      have : dotList (x :: as) (y :: bs) = x * y + dotList as bs := by
        simp [dotList]
      rw [this, ih bs]
      ring

theorem dotList_self_eq_sum (a : List ℝ) :
    dotList a a = ∑ i ∈ Finset.range a.length, a.getD i 0 ^ 2 := by
  rw [dotList_eq_sum, min_self]
  refine Finset.sum_congr rfl fun i _ => ?_
  ring

theorem dotList_self_nonneg (a : List ℝ) : 0 ≤ dotList a a := by
  rw [dotList_self_eq_sum]
  exact Finset.sum_nonneg fun i _ => sq_nonneg _

theorem npNorm_nonneg (a : List ℝ) : 0 ≤ npNorm a := Real.sqrt_nonneg _

theorem abs_dotList_le (a b : List ℝ) :
    |dotList a b| ≤ npNorm a * npNorm b := by
  have hsq : (dotList a b) ^ 2 ≤ dotList a a * dotList b b := by
    rw [dotList_eq_sum]
    calc (∑ i ∈ Finset.range (min a.length b.length),
          a.getD i 0 * b.getD i 0) ^ 2
        ≤ (∑ i ∈ Finset.range (min a.length b.length), a.getD i 0 ^ 2) *
          ∑ i ∈ Finset.range (min a.length b.length), b.getD i 0 ^ 2 :=
          Finset.sum_mul_sq_le_sq_mul_sq _ _ _
      _ ≤ (∑ i ∈ Finset.range a.length, a.getD i 0 ^ 2) *
          ∑ i ∈ Finset.range b.length, b.getD i 0 ^ 2 := by
          refine mul_le_mul ?_ ?_ ?_ ?_
          · exact Finset.sum_le_sum_of_subset_of_nonneg
              (Finset.range_subset.mpr (Nat.min_le_left _ _))
              fun i _ _ => sq_nonneg _
          · exact Finset.sum_le_sum_of_subset_of_nonneg
              (Finset.range_subset.mpr (Nat.min_le_right _ _))
              fun i _ _ => sq_nonneg _
          · exact Finset.sum_nonneg fun i _ => sq_nonneg _
          · exact Finset.sum_nonneg fun i _ => sq_nonneg _
      _ = dotList a a * dotList b b := by
          rw [dotList_self_eq_sum, dotList_self_eq_sum]
  calc |dotList a b| = Real.sqrt ((dotList a b) ^ 2) :=
        (Real.sqrt_sq_eq_abs _).symm
    _ ≤ Real.sqrt (dotList a a * dotList b b) := Real.sqrt_le_sqrt hsq
    _ = npNorm a * npNorm b := by
        rw [Real.sqrt_mul (dotList_self_nonneg a)]
        rfl

theorem cosineSimilarity_den_pos (q d : List ℝ) :
    0 < npNorm q * npNorm d + 1e-9 := by
  have h1 : 0 ≤ npNorm q * npNorm d :=
    mul_nonneg (npNorm_nonneg q) (npNorm_nonneg d)
  have h2 : (0 : ℝ) < 1e-9 := by norm_num
  linarith

theorem abs_cosineSimilarity_le_one (q d : List ℝ) :
    |cosineSimilarity q d| ≤ 1 := by
  rw [cosineSimilarity, abs_div, abs_of_pos (cosineSimilarity_den_pos q d),
    div_le_one (cosineSimilarity_den_pos q d)]
  calc |dotList q d| ≤ npNorm q * npNorm d := abs_dotList_le q d
    _ ≤ npNorm q * npNorm d + 1e-9 := by
        have : (0 : ℝ) < 1e-9 := by norm_num
        linarith

theorem sem_search_model_none {st : SemanticSearch} {q : String} {k : Nat}
    {rs : List (SearchResult ℝ)} (hm : st.embedding_model = none) :
    SemanticSearch.search st q k ≠ .ok rs := by
  by_cases h0 : st.embeddings.length = 0
  · rw [SemanticSearch.search, if_pos h0]
    simp
  · rw [SemanticSearch.search, if_neg h0, hm]
    simp

/-- C5: the cosine-similarity computation of `SemanticSearch.search` is
total and bounded: for every pair of embedding vectors (including all-zero
vectors) the denominator — the product of the norms plus the `1e-9`
epsilon — is nonzero, the similarity lies in `[-1-ε, 1+ε]` (with
`ε = 1e-9`), and consequently every returned score lies in that
interval. -/
theorem C5_cosine_total_bounded :
    (∀ q d : List ℝ, npNorm q * npNorm d + 1e-9 ≠ 0 ∧
      -(1 + 1e-9) ≤ cosineSimilarity q d ∧
      cosineSimilarity q d ≤ 1 + 1e-9) ∧
    (∀ (st : SemanticSearch) (query : String) (k : Nat)
      (rs : List (SearchResult ℝ)) (r : SearchResult ℝ),
      SemanticSearch.search st query k = .ok rs → r ∈ rs →
      -(1 + 1e-9) ≤ r.score ∧ r.score ≤ 1 + 1e-9) := by
  have hbounds : ∀ q d : List ℝ, -(1 + 1e-9) ≤ cosineSimilarity q d ∧
      cosineSimilarity q d ≤ 1 + 1e-9 := by
    intro q d
    have h := abs_le.mp (abs_cosineSimilarity_le_one q d)
    constructor <;> linarith [h.1, h.2]
  constructor
  · intro q d
    exact ⟨(cosineSimilarity_den_pos q d).ne', hbounds q d⟩
  · intro st query k rs r hs hr
    rcases hm : st.embedding_model with _ | f
    · exact absurd hs (sem_search_model_none hm)
    · obtain ⟨-, hshape⟩ := sem_results_shape hm hs
      rw [hshape] at hr
      obtain ⟨idx, hidx, hr⟩ := List.mem_map.mp hr
      have hlt : idx <
          (st.embeddings.map fun d => cosineSimilarity (f query) d).length :=
        mem_topKIndices hidx
      have hmem : (st.embeddings.map fun d =>
          cosineSimilarity (f query) d).getD idx 0 ∈
          st.embeddings.map fun d => cosineSimilarity (f query) d :=
        List.get?_mem (get?_eq_some_getD 0 hlt)
      obtain ⟨emb, -, hemb⟩ := List.mem_map.mp hmem
      have hsc : r.score = cosineSimilarity (f query) emb := by
        rw [← hr, ← hemb]
      rw [hsc]
      exact hbounds _ _

/-- C5 witness: the result-score bound applied to a concrete search call. -/
theorem C5_witness :
    SemanticSearch.search ⟨["a"], [[1]], some constEmbed⟩ "a" 1 =
      .ok [⟨"a", cosineSimilarity (constEmbed "a") [1], 0⟩] ∧
    (-(1 + 1e-9) ≤ cosineSimilarity (constEmbed "a") [1] ∧
      cosineSimilarity (constEmbed "a") [1] ≤ 1 + 1e-9) := by
  refine ⟨rfl, ?_⟩
  exact C5_cosine_total_bounded.2 ⟨["a"], [[1]], some constEmbed⟩ "a" 1
    [⟨"a", cosineSimilarity (constEmbed "a") [1], 0⟩]
    ⟨"a", cosineSimilarity (constEmbed "a") [1], 0⟩ rfl
    (List.mem_singleton.mpr rfl)

/- ### Structure of header matches -/

theorem isWS_of_isWordChar {c : Char} (h : isWordChar c = true) :
    isWS c = false := by
  cases hws : isWS c
  · rfl
  · exfalso
    simp only [isWS, Bool.or_eq_true, decide_eq_true_eq] at hws
    rcases hws with ((((h1 | h1) | h1) | h1) | h1) | h1 <;> subst h1 <;>
      exact absurd h (by decide)

theorem takeWhile_append_eq {α : Type} {p : α → Bool} : ∀ {w rest : List α},
    (∀ c ∈ w, p c = true) → (∀ c rest2, rest = c :: rest2 → p c = false) →
    (w ++ rest).takeWhile p = w := by
  intro w
  induction w with
  | nil =>
    intro rest _ hr
    cases rest with
    | nil => rfl
    | cons c r2 => simp [List.takeWhile_cons, hr c r2 rfl]
  | cons a w' ih =>
    intro rest hw hr
    have ha := hw a (List.mem_cons_self a w')
    simp only [List.cons_append, List.takeWhile_cons, ha, if_true]
    rw [ih (fun c hc => hw c (List.mem_cons_of_mem _ hc)) hr]

theorem matchHeader_eq_some_iff {cs : List Char} {h : Nat} :
    matchHeader cs = some h ↔ HeaderParts cs h := by
  constructor
  · intro hm
    simp only [matchHeader] at hm
    split_ifs at hm with h1 h2 h3 h4
    obtain ⟨rest1, hcs⟩ := List.isPrefixOf_iff_prefix.mp h1
    have hdrop5 : cs.drop 5 = rest1 := by
      rw [← hcs]
      exact List.drop_left' rfl
    rw [hdrop5] at h2 h3 h4 hm
    set w := rest1.takeWhile isWS with hw
    obtain ⟨rest2, hw2⟩ := List.takeWhile_prefix (l := rest1) isWS
    have hd2 : rest1.drop w.length = rest2 := by
      conv_lhs => rw [← hw2]
      exact List.drop_left' rfl
    rw [hd2] at h3 h4 hm
    set n := rest2.takeWhile isWordChar with hn
    obtain ⟨rest3, hn3⟩ := List.takeWhile_prefix (l := rest2) isWordChar
    have hd3 : rest2.drop n.length = rest3 := by
      conv_lhs => rw [← hn3]
      exact List.drop_left' rfl
    rw [hd3] at h4
    obtain ⟨r, hr⟩ := List.isPrefixOf_iff_prefix.mp h4
    refine ⟨w, n, r, ?_, ?_, ?_, ?_, ?_, ?_⟩
    · rw [← hcs, ← hw2, ← hn3, ← hr]
      simp [List.append_assoc]
    · intro hnil
      exact h2 (by rw [hnil]; rfl)
    · intro c hc
      rw [hw] at hc
      exact List.mem_takeWhile_imp hc
    · intro hnil
      exact h3 (by rw [hnil]; rfl)
    · intro c hc
      rw [hn] at hc
      exact List.mem_takeWhile_imp hc
    · have := (Option.some.injEq _ _).mp hm
      omega
  · rintro ⟨w, n, r, hcs, hw, hwmem, hn, hnmem, hh⟩
    have hassoc : cs = kwClass ++ (w ++ (n ++ (kwBase ++ r))) := by
      rw [hcs]; simp [List.append_assoc]
    have hp : kwClass.isPrefixOf cs :=
      List.isPrefixOf_iff_prefix.mpr ⟨w ++ (n ++ (kwBase ++ r)), hassoc.symm⟩
    have hdrop : cs.drop 5 = w ++ (n ++ (kwBase ++ r)) := by
      rw [hassoc]
      exact List.drop_left' rfl
    have htw : (w ++ (n ++ (kwBase ++ r))).takeWhile isWS = w := by
      refine takeWhile_append_eq hwmem ?_
      intro c rest2 hc
      cases n with
      | nil => exact absurd rfl hn
      | cons nh nt =>
        have : c = nh := by
          simpa using congrArg (fun l => l.head?) hc.symm
        subst this
        exact isWS_of_isWordChar (hnmem c (List.mem_cons_self _ _))
    have hdrop2 : (w ++ (n ++ (kwBase ++ r))).drop w.length =
        n ++ (kwBase ++ r) := List.drop_left' rfl
    have htw2 : (n ++ (kwBase ++ r)).takeWhile isWordChar = n := by
      refine takeWhile_append_eq hnmem ?_
      intro c rest2 hc
      have : c = '(' := by
        simpa [kwBase] using congrArg (fun l => l.head?) hc.symm
      subst this
      decide
    have hdrop3 : (n ++ (kwBase ++ r)).drop n.length = kwBase ++ r :=
      List.drop_left' rfl
    have hbp : kwBase.isPrefixOf (kwBase ++ r) :=
      List.isPrefixOf_iff_prefix.mpr ⟨r, rfl⟩
    simp only [matchHeader, hp, if_true, hdrop, htw, hdrop2, htw2, hdrop3,
      hbp]
    rw [if_neg (by simpa using hw), if_neg (by simpa using hn)]
    simp [hh]

theorem matchHeader_nil : matchHeader [] = none := rfl

theorem matchHeader_bounds {cs : List Char} {h : Nat}
    (hm : matchHeader cs = some h) : 14 ≤ h ∧ h ≤ cs.length := by
  obtain ⟨w, n, r, hcs, hwne, -, hnne, -, hh⟩ :=
    matchHeader_eq_some_iff.mp hm
  have hw1 : 1 ≤ w.length := List.length_pos.mpr hwne
  have hn1 : 1 ≤ n.length := List.length_pos.mpr hnne
  have hlen : cs.length = 5 + w.length + n.length + 7 + r.length := by
    rw [hcs]
    simp only [List.length_append, kwClass, kwBase, List.length_cons,
      List.length_nil]
  omega

theorem matchHeader_take_append {cs : List Char} {h : Nat}
    (hm : matchHeader cs = some h) (e : List Char) :
    matchHeader (cs.take h ++ e) = some h := by
  obtain ⟨w, n, r, hcs, hwne, hwmem, hnne, hnmem, hh⟩ :=
    matchHeader_eq_some_iff.mp hm
  have hgroup : cs = (kwClass ++ w ++ n ++ kwBase) ++ r := by
    rw [hcs]
  have htake : cs.take h = kwClass ++ w ++ n ++ kwBase := by
    rw [hgroup]
    refine List.take_left' ?_
    simp only [List.length_append, kwClass, kwBase, List.length_cons,
      List.length_nil]
    omega
  rw [htake]
  refine matchHeader_eq_some_iff.mpr ⟨w, n, e, ?_, hwne, hwmem, hnne, hnmem,
    hh⟩
  simp [List.append_assoc]

theorem matchHeader_append {cs : List Char} {h : Nat}
    (hm : matchHeader cs = some h) (e : List Char) :
    matchHeader (cs ++ e) = some h := by
  have := matchHeader_take_append hm (cs.drop h ++ e)
  rwa [← List.append_assoc, List.take_append_drop] at this

theorem matchHeader_take_lift {cs : List Char} {m h : Nat}
    (hm : matchHeader (cs.take m) = some h) : matchHeader cs = some h := by
  have := matchHeader_append hm (cs.drop m)
  rwa [List.take_append_drop] at this

theorem matchHeader_of_append {cs e : List Char} {h : Nat}
    (hm : matchHeader (cs ++ e) = some h) (hle : h ≤ cs.length) :
    matchHeader cs = some h := by
  have h1 := matchHeader_take_append hm (cs.drop h)
  rw [List.take_append_of_le_length hle, List.take_append_drop] at h1
  exact h1

/- ### NLHeader and findStop facts -/

theorem NLHeader_nil : NLHeader [] = false := rfl

theorem NLHeader_cons_iff {c : Char} {rest : List Char} :
    NLHeader (c :: rest) = true ↔
      c = '\n' ∧ ∃ h, matchHeader rest = some h := by
  simp [NLHeader, Option.isSome_iff_exists]

theorem NLHeader_take {l : List Char} {s : Nat}
    (h : NLHeader (l.take s) = true) : NLHeader l = true := by
  cases l with
  | nil => simpa [List.take_nil] using h
  | cons c rest =>
    cases s with
    | zero => simp [NLHeader] at h
    | succ s =>
      rw [List.take_succ_cons] at h
      obtain ⟨hc, h', hmh⟩ := NLHeader_cons_iff.mp h
      exact NLHeader_cons_iff.mpr ⟨hc, h', matchHeader_take_lift hmh⟩

theorem findStop_nil : findStop [] = 0 := rfl

theorem findStop_le (l : List Char) : findStop l ≤ l.length := by
  induction l with
  | nil => simp [findStop]
  | cons c rest ih =>
    rw [findStop]
    split
    · simp
    · simp only [List.length_cons]
      omega

theorem NLHeader_false_of_lt_findStop {l : List Char} {j : Nat}
    (h : j < findStop l) : NLHeader (l.drop j) = false := by
  induction l generalizing j with
  | nil => simp [findStop] at h
  | cons c rest ih =>
    rw [findStop] at h
    split at h
    · omega
    · cases j with
      | zero =>
        rename_i hns
        simpa using hns
      | succ j =>
        rw [List.drop_succ_cons]
        exact ih (by omega)

theorem findStop_append {x t : List Char}
    (hx : ∀ j, j < x.length → NLHeader (x.drop j ++ t) = false) :
    findStop (x ++ t) = x.length + findStop t := by
  induction x with
  | nil => simp
  | cons c x' ih =>
    have h0 : NLHeader (c :: (x' ++ t)) = false := by
      simpa using hx 0 (by simp)
    rw [List.cons_append, findStop]
    rw [if_neg (by simp [h0])]
    rw [ih (fun j hj => by simpa using hx (j + 1) (by simpa using hj))]
    simp only [List.length_cons]
    omega

theorem findStop_all {x : List Char}
    (hx : ∀ j, j < x.length → NLHeader (x.drop j) = false) :
    findStop x = x.length := by
  have := findStop_append (x := x) (t := []) (by simpa using hx)
  simpa using this

theorem findStop_of_NLHeader {t : List Char} (h : NLHeader t = true) :
    findStop t = 0 := by
  cases t with
  | nil => simp [NLHeader] at h
  | cons c rest =>
    rw [findStop, if_pos h]

/- ### The `re.findall` scanner: unfolding and adequacy of the fuel -/

theorem scanFuel_nil (fuel : Nat) : scanFuel fuel [] = [] := by
  cases fuel <;> rfl

theorem scan_nil : scan [] = [] := rfl

theorem scanFuel_succ_match {fuel : Nat} {c : Char} {rest : List Char}
    {hl : Nat} (hmh : matchHeader (c :: rest) = some hl) :
    scanFuel (fuel + 1) (c :: rest) =
      List.take (hl + findStop (List.drop hl (c :: rest))) (c :: rest) ::
        scanFuel fuel
          (List.drop (hl + findStop (List.drop hl (c :: rest)))
            (c :: rest)) := by
  rw [scanFuel, hmh]

theorem scanFuel_succ_nomatch {fuel : Nat} {c : Char} {rest : List Char}
    (hmh : matchHeader (c :: rest) = none) :
    scanFuel (fuel + 1) (c :: rest) = scanFuel fuel rest := by
  rw [scanFuel, hmh]

theorem scanFuel_eq_scan : ∀ (fuel : Nat) (cs : List Char),
    cs.length ≤ fuel → scanFuel fuel cs = scan cs := by
  intro fuel
  induction fuel using Nat.strong_induction_on with
  | _ fuel ih =>
    intro cs hle
    cases cs with
    | nil => rw [scanFuel_nil, scan_nil]
    | cons c rest =>
      cases fuel with
      | zero => simp at hle
      | succ f =>
        have hsc : scan (c :: rest) = scanFuel (rest.length + 1) (c :: rest) :=
          rfl
        cases hmh : matchHeader (c :: rest) with
        | some hl =>
          have hb := matchHeader_bounds hmh
          have hd : (List.drop (hl + findStop (List.drop hl (c :: rest)))
              (c :: rest)).length ≤ rest.length := by
            rw [List.length_drop]
            have := hb.1
            simp only [List.length_cons]
            omega
          rw [scanFuel_succ_match hmh, hsc, scanFuel_succ_match hmh]
          have hlef : (c :: rest).length ≤ f + 1 := hle
          simp only [List.length_cons] at hlef
          congr 1
          rw [ih f (by omega) _ (le_trans hd (by omega)),
            ih rest.length (by omega) _ hd]
        | none =>
          rw [scanFuel_succ_nomatch hmh, hsc, scanFuel_succ_nomatch hmh]
          have hlef : (c :: rest).length ≤ f + 1 := hle
          simp only [List.length_cons] at hlef
          rw [ih f (by omega) _ (by omega),
            ih rest.length (by omega) _ (le_refl _)]

theorem scan_cons_match {c : Char} {rest : List Char} {hl : Nat}
    (hmh : matchHeader (c :: rest) = some hl) :
    scan (c :: rest) =
      List.take (hl + findStop (List.drop hl (c :: rest))) (c :: rest) ::
        scan (List.drop (hl + findStop (List.drop hl (c :: rest)))
          (c :: rest)) := by
  have hb := matchHeader_bounds hmh
  have hsc : scan (c :: rest) = scanFuel (rest.length + 1) (c :: rest) := rfl
  rw [hsc, scanFuel_succ_match hmh]
  congr 1
  refine scanFuel_eq_scan rest.length _ ?_
  rw [List.length_drop]
  have := hb.1
  simp only [List.length_cons]
  omega

theorem scan_cons_nomatch {c : Char} {rest : List Char}
    (hmh : matchHeader (c :: rest) = none) : scan (c :: rest) = scan rest := by
  have hsc : scan (c :: rest) = scanFuel (rest.length + 1) (c :: rest) := rfl
  rw [hsc, scanFuel_succ_nomatch hmh]
  exact scanFuel_eq_scan rest.length rest (le_refl _)

/- ### Soundness of the scanner: every extracted span starts with a header
   and has no internal lookahead occurrence past its header -/

theorem scan_sound_aux : ∀ (N : Nat) (cs : List Char), cs.length ≤ N →
    ∀ m ∈ scan cs, ∃ h, matchHeader m = some h ∧
      ∀ i, h ≤ i → NLHeader (m.drop i) = false := by
  intro N
  induction N with
  | zero =>
    intro cs hle m hm
    have hnil : cs = [] := List.length_eq_zero.mp (Nat.le_zero.mp hle)
    subst hnil
    rw [scan_nil] at hm
    simp at hm
  | succ N ihN =>
    intro cs hle m hm
    cases cs with
    | nil =>
      rw [scan_nil] at hm
      simp at hm
    | cons c rest =>
      simp only [List.length_cons] at hle
      cases hmh : matchHeader (c :: rest) with
      | none =>
        rw [scan_cons_nomatch hmh] at hm
        exact ihN rest (by omega) m hm
      | some hl =>
        have hb := matchHeader_bounds hmh
        rw [scan_cons_match hmh] at hm
        rcases List.mem_cons.mp hm with hm1 | hm2
        · subst hm1
          refine ⟨hl, ?_, ?_⟩
          · rw [List.take_add]
            exact matchHeader_take_append hmh _
          · intro i hi
            by_cases hbig :
                hl + findStop (List.drop hl (c :: rest)) ≤ i
            · have hnil2 : (List.take
                  (hl + findStop (List.drop hl (c :: rest)))
                  (c :: rest)).drop i = [] := by
                apply List.drop_eq_nil_of_le
                rw [List.length_take]
                exact le_trans inf_le_left hbig
              rw [hnil2]
              rfl
            · push_neg at hbig
              have hj : i - hl < findStop (List.drop hl (c :: rest)) := by
                omega
              have hy : NLHeader ((c :: rest).drop i) = false := by
                have h2 := NLHeader_false_of_lt_findStop
                  (l := List.drop hl (c :: rest)) hj
                rw [List.drop_drop] at h2
                rwa [(by omega : hl + (i - hl) = i)] at h2
              cases hNL : NLHeader ((List.take
                  (hl + findStop (List.drop hl (c :: rest)))
                  (c :: rest)).drop i) with
              | false => rfl
              | true =>
                exfalso
                rw [List.drop_take] at hNL
                rw [NLHeader_take hNL] at hy
                simp at hy
        · refine ihN _ ?_ m hm2
          rw [List.length_drop]
          have := hb.1
          simp only [List.length_cons]
          omega

theorem scan_sound {cs m : List Char} (hm : m ∈ scan cs) :
    ∃ h, matchHeader m = some h ∧
      ∀ i, h ≤ i → NLHeader (m.drop i) = false :=
  scan_sound_aux cs.length cs (le_refl _) m hm

/- ### Python strip: structure lemmas -/

theorem rstrip_decomp (m : List Char) :
    ∃ t, m = rstrip m ++ t ∧ ∀ c ∈ t, isWS c = true := by
  have h := List.takeWhile_append_dropWhile isWS m.reverse
  refine ⟨(m.reverse.takeWhile isWS).reverse, ?_, ?_⟩
  · calc m = m.reverse.reverse := (List.reverse_reverse m).symm
      _ = (m.reverse.takeWhile isWS ++ m.reverse.dropWhile isWS).reverse := by
          rw [h]
      _ = (m.reverse.dropWhile isWS).reverse ++
          (m.reverse.takeWhile isWS).reverse := List.reverse_append _ _
  · intro c hc
    rw [List.mem_reverse] at hc
    exact List.mem_takeWhile_imp hc

theorem rstrip_eq_take (m : List Char) :
    rstrip m = m.take (rstrip m).length := by
  obtain ⟨t, hmt, -⟩ := rstrip_decomp m
  conv_lhs => rw [← List.take_left (rstrip m) t, ← hmt]

theorem rstrip_idem (m : List Char) : rstrip (rstrip m) = rstrip m := by
  rw [rstrip, rstrip, List.reverse_reverse, List.dropWhile_idempotent]

theorem pyStrip_of_header {m : List Char} {h : Nat}
    (hm : matchHeader m = some h) : pyStrip m = rstrip m := by
  obtain ⟨w, n, r, hcs, -, -, -, -, -⟩ := matchHeader_eq_some_iff.mp hm
  rw [pyStrip]
  congr 1
  rw [hcs]
  simp [kwClass, List.dropWhile_cons, isWS]

/- The character at position `h - 1` of a header match is the final `:`,
   which is not whitespace; hence right-stripping keeps the whole header. -/
theorem rstrip_keeps_header {m : List Char} {h : Nat}
    (hm : matchHeader m = some h) : h ≤ (rstrip m).length := by
  by_contra hlt
  push_neg at hlt
  obtain ⟨w, n, r, hcs, hwne, -, hnne, -, hh⟩ := matchHeader_eq_some_iff.mp hm
  obtain ⟨t, hmt, hts⟩ := rstrip_decomp m
  have hb := matchHeader_bounds hm
  -- the character at index h - 1 is ':'
  have hcolon : m.getD (h - 1) ' ' = ':' := by
    have hgroup : m = (kwClass ++ w ++ n) ++ (kwBase ++ r) := by
      rw [hcs]
      simp [List.append_assoc]
    have hglen : (kwClass ++ w ++ n).length = 5 + w.length + n.length := by
      simp [kwClass]
      omega
    rw [hgroup, List.getD_append_right _ _ _ _ (by omega), hglen]
    have hidx : h - 1 - (5 + w.length + n.length) = 6 := by omega
    rw [hidx]
    rw [List.getD_append _ _ _ _ (by simp [kwBase])]
    rfl
  -- but index h - 1 falls into the all-whitespace stripped tail t
  have hcolonmem : m.getD (h - 1) ' ' ∈ t := by
    rw [hmt, List.getD_append_right _ _ _ _ (by omega)]
    apply List.get?_mem
    apply get?_eq_some_getD
    have hlen2 := congrArg List.length hmt
    rw [List.length_append] at hlen2
    omega
  rw [hcolon] at hcolonmem
  have := hts ':' hcolonmem
  simp [isWS] at this

theorem matchHeader_rstrip {m : List Char} {h : Nat}
    (hm : matchHeader m = some h) : matchHeader (rstrip m) = some h := by
  have hkeep := rstrip_keeps_header hm
  rw [rstrip_eq_take]
  have : m.take (rstrip m).length =
      m.take h ++ (m.drop h).take ((rstrip m).length - h) := by
    rw [← List.take_add]
    congr 1
    omega
  rw [this]
  exact matchHeader_take_append hm _

/- ### No internal lookahead occurrence inside or straddling a header -/

theorem drop_append_ge {α : Type} {l1 l2 : List α} {n : Nat}
    (h : l1.length ≤ n) : (l1 ++ l2).drop n = l2.drop (n - l1.length) := by
  rw [List.drop_append_eq_append_drop, List.drop_eq_nil_of_le h,
    List.nil_append]

theorem getD_mem {α : Type} {l : List α} {n : Nat} (d : α)
    (h : n < l.length) : l.getD n d ∈ l :=
  List.get?_mem (get?_eq_some_getD d h)

theorem matchHeader_head {cs : List Char} {h : Nat}
    (hm : matchHeader cs = some h) : cs.getD 0 ' ' = 'c' := by
  obtain ⟨w, n, r, hcs, -, -, -, -, -⟩ := matchHeader_eq_some_iff.mp hm
  rw [hcs]
  rfl

theorem matchHeader_cons_ne {c : Char} {rest : List Char} (hc : c ≠ 'c') :
    matchHeader (c :: rest) = none := by
  cases hmh : matchHeader (c :: rest) with
  | none => rfl
  | some h =>
    exfalso
    have := matchHeader_head hmh
    simp at this
    exact hc this

theorem matchHeader_word_run_none {n r : List Char} (hn : n ≠ [])
    (hnmem : ∀ c ∈ n, isWordChar c = true) :
    matchHeader (n ++ (kwBase ++ r)) = none := by
  cases hmh : matchHeader (n ++ (kwBase ++ r)) with
  | none => rfl
  | some h2 =>
    exfalso
    obtain ⟨w', n', r', heq, hw'ne, hw'mem, -, -, -⟩ :=
      matchHeader_eq_some_iff.mp hmh
    simp only [List.append_assoc] at heq
    have hn1 : 1 ≤ n.length := List.length_pos.mpr hn
    have hw'1 : 1 ≤ w'.length := List.length_pos.mpr hw'ne
    have hkw5 : kwClass.length = 5 := rfl
    have hB : (kwBase ++ r).getD 0 ' ' = '(' := rfl
    rcases lt_trichotomy n.length 5 with hc5 | hc5 | hc5
    · have hchar := congrArg (fun l => l.getD n.length ' ') heq
      simp only at hchar
      rw [List.getD_append_right n (kwBase ++ r) ' ' n.length (le_refl _),
        Nat.sub_self] at hchar
      rw [List.getD_append kwClass (w' ++ (n' ++ (kwBase ++ r'))) ' '
        n.length (by rw [hkw5]; omega)] at hchar
      rw [hB] at hchar
      set j := n.length with hj
      interval_cases j <;>
        simp [kwClass, List.getD_cons_succ, List.getD_cons_zero] at hchar
    · have hchar := congrArg (fun l => l.getD 5 ' ') heq
      simp only at hchar
      rw [List.getD_append_right n (kwBase ++ r) ' ' 5 (by omega),
        hc5, Nat.sub_self] at hchar
      rw [List.getD_append_right kwClass (w' ++ (n' ++ (kwBase ++ r'))) ' '
        5 (by rw [hkw5]), hkw5, Nat.sub_self] at hchar
      rw [List.getD_append w' (n' ++ (kwBase ++ r')) ' ' 0 (by omega)]
        at hchar
      rw [hB] at hchar
      have hws := hw'mem _ (getD_mem (l := w') (n := 0) ' ' (by omega))
      rw [← hchar] at hws
      simp [isWS] at hws
    · have hchar := congrArg (fun l => l.getD 5 ' ') heq
      simp only at hchar
      rw [List.getD_append n (kwBase ++ r) ' ' 5 (by omega)] at hchar
      rw [List.getD_append_right kwClass (w' ++ (n' ++ (kwBase ++ r'))) ' '
        5 (by rw [hkw5]), hkw5, Nat.sub_self] at hchar
      rw [List.getD_append w' (n' ++ (kwBase ++ r')) ' ' 0 (by omega)]
        at hchar
      have hwd := hnmem _ (getD_mem (l := n) (n := 5) ' ' (by omega : 5 < n.length))
      have hws := hw'mem _ (getD_mem (l := w') (n := 0) ' ' (by omega))
      rw [← hchar] at hws
      rw [isWS_of_isWordChar hwd] at hws
      simp at hws

theorem matchHeader_straddle_none {x y : List Char} {hy' : Nat}
    (hx : matchHeader x = none) (hym : matchHeader y = some hy') :
    matchHeader (x ++ '\n' :: y) = none := by
  cases hmh : matchHeader (x ++ '\n' :: y) with
  | none => rfl
  | some H =>
    exfalso
    obtain ⟨w, n, r, heq, hwne, hwmem, hnne, hnmem, hH⟩ :=
      matchHeader_eq_some_iff.mp hmh
    simp only [List.append_assoc] at heq
    have hkw5 : kwClass.length = 5 := rfl
    have hchar : (x ++ '\n' :: y).getD x.length ' ' = '\n' := by
      rw [List.getD_append_right x ('\n' :: y) ' ' x.length (le_refl _),
        Nat.sub_self]
      rfl
    rw [heq] at hchar
    by_cases hA : x.length < 5
    · -- '\n' would be a letter of `class`
      have hmem : '\n' ∈ kwClass := by
        rw [List.getD_append kwClass _ ' ' x.length (by rw [hkw5]; omega)]
          at hchar
        exact hchar ▸ getD_mem (l := kwClass) (n := x.length) ' '
          (by rw [hkw5]; omega)
      simp [kwClass] at hmem
    · push_neg at hA
      by_cases hB : x.length < 5 + w.length
      · -- '\n' inside the whitespace run: x ends inside w, y starts at the
        -- rest of w
        have hyeq : y = w.drop (x.length - 5 + 1) ++ (n ++ (kwBase ++ r)) := by
          have h1 : (x ++ '\n' :: y).drop (x.length + 1) = y := by
            rw [drop_append_ge (by omega)]
            simp
          have h2 : (kwClass ++ (w ++ (n ++ (kwBase ++ r)))).drop
              (x.length + 1) = w.drop (x.length - 5 + 1) ++
                (n ++ (kwBase ++ r)) := by
            rw [drop_append_ge (by rw [hkw5]; omega), hkw5]
            have hidx : x.length + 1 - 5 = x.length - 5 + 1 := by omega
            rw [hidx]
            rw [List.drop_append_of_le_length (by omega)]
          rw [← h1, heq, h2]
        cases hdw : w.drop (x.length - 5 + 1) with
        | nil =>
          rw [hdw, List.nil_append] at hyeq
          rw [hyeq] at hym
          rw [matchHeader_word_run_none hnne hnmem] at hym
          exact Option.noConfusion hym
        | cons c2 w2 =>
          have hc2w : c2 ∈ w :=
            List.mem_of_mem_drop (hdw ▸ List.mem_cons_self c2 w2)
          have hc2ws := hwmem c2 hc2w
          have hy0 : y.getD 0 ' ' = c2 := by
            rw [hyeq, hdw]
            rfl
          have hhead := matchHeader_head hym
          rw [hy0] at hhead
          rw [hhead] at hc2ws
          simp [isWS] at hc2ws
      · push_neg at hB
        by_cases hC : x.length < 5 + w.length + n.length
        · -- '\n' would be a word character
          have hmem : '\n' ∈ n := by
            rw [List.getD_append_right kwClass _ ' ' x.length
              (by rw [hkw5]; omega), hkw5] at hchar
            rw [List.getD_append_right w _ ' ' (x.length - 5)
              (by omega)] at hchar
            rw [List.getD_append n _ ' ' (x.length - 5 - w.length)
              (by omega)] at hchar
            exact hchar ▸ getD_mem (l := n) (n := x.length - 5 - w.length)
              ' ' (by omega)
          have := hnmem '\n' hmem
          simp [isWordChar, Char.isAlphanum, Char.isAlpha, Char.isDigit,
            Char.isLower, Char.isUpper] at this
        · push_neg at hC
          by_cases hD : x.length < 5 + w.length + n.length + 7
          · -- '\n' would be a character of `(Base):`
            have hmem : '\n' ∈ kwBase := by
              rw [List.getD_append_right kwClass _ ' ' x.length
                (by rw [hkw5]; omega), hkw5] at hchar
              rw [List.getD_append_right w _ ' ' (x.length - 5)
                (by omega)] at hchar
              rw [List.getD_append_right n _ ' ' (x.length - 5 - w.length)
                (by omega)] at hchar
              rw [List.getD_append kwBase r ' '
                (x.length - 5 - w.length - n.length)
                (by simp [kwBase]; omega)] at hchar
              exact hchar ▸ getD_mem (l := kwBase)
                (n := x.length - 5 - w.length - n.length) ' '
                (by simp [kwBase]; omega)
            simp [kwBase] at hmem
          · -- the whole header fits inside x, contradicting hx
            push_neg at hD
            have hxm := matchHeader_of_append (e := '\n' :: y) hmh
              (by omega : H ≤ x.length)
            rw [hxm] at hx
            exact Option.noConfusion hx

theorem NLHeader_inside_header {cs : List Char} {h i : Nat}
    (hm : matchHeader cs = some h) (hi1 : 1 ≤ i) (hih : i < h) :
    NLHeader (cs.drop i) = false := by
  obtain ⟨w, n, r, hcs, hwne, hwmem, hnne, hnmem, hH⟩ :=
    matchHeader_eq_some_iff.mp hm
  have hcs' : cs = kwClass ++ (w ++ (n ++ (kwBase ++ r))) := by
    rw [hcs]
    simp [List.append_assoc]
  have hkw5 : kwClass.length = 5 := rfl
  cases hNL : NLHeader (cs.drop i) with
  | false => rfl
  | true =>
    exfalso
    have hlen : i < cs.length := by
      have := (matchHeader_bounds hm).2
      omega
    have hdropeq : cs.drop i = cs.getD i ' ' :: cs.drop (i + 1) := by
      rw [List.drop_eq_getElem_cons hlen, List.getD_eq_getElem _ _ hlen]
    rw [hdropeq] at hNL
    obtain ⟨hc, h'', hmh2⟩ := NLHeader_cons_iff.mp hNL
    rw [hcs'] at hc hmh2
    by_cases hA : i < 5
    · have hmem : '\n' ∈ kwClass := by
        rw [List.getD_append kwClass _ ' ' i (by rw [hkw5]; omega)] at hc
        exact hc ▸ getD_mem (l := kwClass) (n := i) ' ' (by rw [hkw5]; omega)
      simp [kwClass] at hmem
    · push_neg at hA
      by_cases hB : i < 5 + w.length
      · have hyeq : (kwClass ++ (w ++ (n ++ (kwBase ++ r)))).drop (i + 1) =
            w.drop (i - 5 + 1) ++ (n ++ (kwBase ++ r)) := by
          rw [drop_append_ge (by rw [hkw5]; omega), hkw5]
          have hidx : i + 1 - 5 = i - 5 + 1 := by omega
          rw [hidx, List.drop_append_of_le_length (by omega)]
        rw [hyeq] at hmh2
        cases hdw : w.drop (i - 5 + 1) with
        | nil =>
          rw [hdw, List.nil_append] at hmh2
          rw [matchHeader_word_run_none hnne hnmem] at hmh2
          exact Option.noConfusion hmh2
        | cons c2 w2 =>
          rw [hdw] at hmh2
          have hc2w : c2 ∈ w :=
            List.mem_of_mem_drop (hdw ▸ List.mem_cons_self c2 w2)
          have hc2ws := hwmem c2 hc2w
          have hhead := matchHeader_head hmh2
          have hc2c : c2 = 'c' := by simpa using hhead
          rw [hc2c] at hc2ws
          simp [isWS] at hc2ws
      · push_neg at hB
        by_cases hC : i < 5 + w.length + n.length
        · have hmem : '\n' ∈ n := by
            rw [List.getD_append_right kwClass _ ' ' i (by rw [hkw5]; omega),
              hkw5] at hc
            rw [List.getD_append_right w _ ' ' (i - 5) (by omega)] at hc
            rw [List.getD_append n _ ' ' (i - 5 - w.length) (by omega)] at hc
            exact hc ▸ getD_mem (l := n) (n := i - 5 - w.length) ' '
              (by omega)
          have := hnmem '\n' hmem
          simp [isWordChar, Char.isAlphanum, Char.isAlpha, Char.isDigit,
            Char.isLower, Char.isUpper] at this
        · push_neg at hC
          have hmem : '\n' ∈ kwBase := by
            rw [List.getD_append_right kwClass _ ' ' i (by rw [hkw5]; omega),
              hkw5] at hc
            rw [List.getD_append_right w _ ' ' (i - 5) (by omega)] at hc
            rw [List.getD_append_right n _ ' ' (i - 5 - w.length)
              (by omega)] at hc
            rw [List.getD_append kwBase r ' '
              (i - 5 - w.length - n.length) (by simp [kwBase]; omega)] at hc
            exact hc ▸ getD_mem (l := kwBase)
              (n := i - 5 - w.length - n.length) ' ' (by simp [kwBase]; omega)
          simp [kwBase] at hmem

/- ### Stripped scanner output is Clean -/

theorem scan_strip_clean {cs m : List Char} (hm : m ∈ scan cs) :
    Clean (pyStrip m) := by
  obtain ⟨h, hmh, hpost⟩ := scan_sound hm
  rw [pyStrip_of_header hmh]
  constructor
  · exact ⟨h, matchHeader_rstrip hmh⟩
  · intro i hi1
    cases hNL : NLHeader ((rstrip m).drop i) with
    | false => rfl
    | true =>
      exfalso
      have hlift : NLHeader (m.drop i) = true := by
        rw [rstrip_eq_take, List.drop_take] at hNL
        exact NLHeader_take hNL
      by_cases hcase : h ≤ i
      · rw [hpost i hcase] at hlift
        simp at hlift
      · rw [NLHeader_inside_header hmh hi1 (by omega)] at hlift
        simp at hlift

/- ### Rescanning a newline-join of clean chunks reproduces the chunks -/

theorem joinNL_cons_decomp (b2 : List Char) (rest2 : List (List Char)) :
    ∃ tail2, joinNL (b2 :: rest2) = b2 ++ tail2 := by
  cases rest2 with
  | nil => exact ⟨[], by simp [joinNL]⟩
  | cons b3 rest3 => exact ⟨'\n' :: joinNL (b3 :: rest3), rfl⟩

theorem NLHeader_cons_false_of_ne {c : Char} {rest : List Char}
    (hc : c ≠ '\n') : NLHeader (c :: rest) = false := by
  cases h : NLHeader (c :: rest) with
  | false => rfl
  | true =>
    obtain ⟨h1, -⟩ := NLHeader_cons_iff.mp h
    exact absurd h1 hc

theorem NLHeader_cons_false_of_none {c : Char} {rest : List Char}
    (hm : matchHeader rest = none) : NLHeader (c :: rest) = false := by
  cases h : NLHeader (c :: rest) with
  | false => rfl
  | true =>
    obtain ⟨-, h2, hm2⟩ := NLHeader_cons_iff.mp h
    rw [hm] at hm2
    exact Option.noConfusion hm2

theorem scan_joinNL : ∀ (bs : List (List Char)), (∀ b ∈ bs, Clean b) →
    scan (joinNL bs) = bs := by
  intro bs
  induction bs with
  | nil =>
    intro _
    exact scan_nil
  | cons b rest ih =>
    intro hcl
    obtain ⟨⟨hb, hmb⟩, hnlb⟩ := hcl b (List.mem_cons_self b rest)
    have hbounds := matchHeader_bounds hmb
    cases rest with
    | nil =>
      show scan b = [b]
      cases b with
      | nil =>
        rw [matchHeader_nil] at hmb
        exact Option.noConfusion hmb
      | cons c brest =>
        rw [scan_cons_match hmb]
        have hstop : findStop ((c :: brest).drop hb) =
            (c :: brest).length - hb := by
          rw [findStop_all ?_]
          · rw [List.length_drop]
          · intro j hj
            rw [List.drop_drop]
            exact hnlb (hb + j) (by omega)
        rw [hstop]
        have htk : hb + ((c :: brest).length - hb) = (c :: brest).length := by
          omega
        rw [htk, List.take_length, List.drop_length, scan_nil]
    | cons b2 rest2 =>
      have hjoin : joinNL (b :: b2 :: rest2) =
          b ++ '\n' :: joinNL (b2 :: rest2) := rfl
      obtain ⟨⟨hb2, hmb2⟩, hnlb2⟩ := hcl b2 (by simp)
      have hmy : matchHeader (joinNL (b2 :: rest2)) = some hb2 := by
        obtain ⟨tail2, htail2⟩ := joinNL_cons_decomp b2 rest2
        rw [htail2]
        exact matchHeader_append hmb2 _
      rw [hjoin]
      cases b with
      | nil =>
        rw [matchHeader_nil] at hmb
        exact Option.noConfusion hmb
      | cons c brest =>
        rw [List.cons_append]
        have hmfull : matchHeader
            (c :: (brest ++ '\n' :: joinNL (b2 :: rest2))) = some hb := by
          rw [← List.cons_append]
          exact matchHeader_append hmb _
        rw [scan_cons_match hmfull]
        have hsplit : (c :: (brest ++ '\n' :: joinNL (b2 :: rest2))).drop hb =
            (c :: brest).drop hb ++ '\n' :: joinNL (b2 :: rest2) := by
          rw [← List.cons_append, List.drop_append_of_le_length hbounds.2]
        have hstop : findStop
            ((c :: (brest ++ '\n' :: joinNL (b2 :: rest2))).drop hb) =
            (c :: brest).length - hb := by
          rw [hsplit, findStop_append ?_, findStop_of_NLHeader
            (NLHeader_cons_iff.mpr ⟨rfl, hb2, hmy⟩)]
          · rw [List.length_drop]
            omega
          · intro j hj
            rw [List.drop_drop]
            have hp : hb + j < (c :: brest).length := by
              rw [List.length_drop] at hj
              omega
            have hdropeq : (c :: brest).drop (hb + j) =
                (c :: brest).getD (hb + j) ' ' ::
                  (c :: brest).drop (hb + j + 1) := by
              rw [List.drop_eq_getElem_cons hp,
                List.getD_eq_getElem _ _ hp]
            rw [hdropeq, List.cons_append]
            by_cases hch : (c :: brest).getD (hb + j) ' ' = '\n'
            · have hinner : matchHeader ((c :: brest).drop (hb + j + 1)) =
                  none := by
                have hfalse := hnlb (hb + j) (by omega)
                rw [hdropeq, hch] at hfalse
                cases hmm : matchHeader ((c :: brest).drop (hb + j + 1)) with
                | none => rfl
                | some hh2 =>
                  exfalso
                  rw [NLHeader_cons_iff.mpr ⟨rfl, hh2, hmm⟩] at hfalse
                  simp at hfalse
              rw [hch]
              have hstraddle := matchHeader_straddle_none hinner hmy
              exact NLHeader_cons_false_of_none hstraddle
            · exact NLHeader_cons_false_of_ne hch
        rw [hstop]
        have htk : hb + ((c :: brest).length - hb) = (c :: brest).length := by
          omega
        rw [htk]
        have htake : (c :: (brest ++ '\n' :: joinNL (b2 :: rest2))).take
            (c :: brest).length = c :: brest := by
          rw [← List.cons_append]
          exact List.take_left' rfl
        have hdroprest : (c :: (brest ++ '\n' :: joinNL (b2 :: rest2))).drop
            (c :: brest).length = '\n' :: joinNL (b2 :: rest2) := by
          rw [← List.cons_append]
          exact List.drop_left' rfl
        rw [htake, hdroprest]
        rw [scan_cons_nomatch (matchHeader_cons_ne (by decide))]
        rw [ih (fun b' hb' => hcl b' (List.mem_cons_of_mem _ hb'))]

/- ### chunkL with no (or zero) maximum size -/

theorem flatMap_singleton_eq_map {α β : Type} (f : α → β) (l : List α) :
    l.flatMap (fun b => [f b]) = l.map f := by
  induction l with
  | nil => rfl
  | cons a t ih => simp [List.flatMap_cons, ih]

theorem chunkL_none (text : List Char) :
    chunkL none text = (scan text).map pyStrip := by
  rw [chunkL]
  exact flatMap_singleton_eq_map _ _

theorem chunkL_zero (text : List Char) :
    chunkL (some 0) text = chunkL none text := by
  rw [chunkL, chunkL]
  congr 1

theorem pyStrip_idem_of_scan {cs m : List Char} (hm : m ∈ scan cs) :
    pyStrip (pyStrip m) = pyStrip m := by
  obtain ⟨h, hmh, -⟩ := scan_sound hm
  rw [pyStrip_of_header hmh, pyStrip_of_header (matchHeader_rstrip hmh),
    rstrip_idem]

/- ### Header prefix of every `_split_large_block` sub-chunk -/

theorem splitBoundary_cons_ne {c : Char} {rest : List Char} (hc : c ≠ '\n') :
    splitBoundary (c :: rest) = false := by
  match rest with
  | [] => rfl
  | [b] => rfl
  | [b, d] => rfl
  | [b, d, e] => rfl
  | [b, d, e, f] => rfl
  | b :: d :: e :: f :: g :: tl => simp [splitBoundary, hc]

theorem boundaryStop_cons (c : Char) (rest : List Char) :
    boundaryStop (c :: rest) =
      if splitBoundary (c :: rest) then 0 else 1 + boundaryStop rest := rfl

theorem boundaryStop_class_ge (t : List Char) :
    5 ≤ boundaryStop (kwClass ++ t) := by
  have h1 : ∀ (c : Char) (r : List Char), c ≠ '\n' →
      boundaryStop (c :: r) = 1 + boundaryStop r := by
    intro c r hc
    rw [boundaryStop_cons, if_neg (by simp [splitBoundary_cons_ne hc])]
  show 5 ≤ boundaryStop ('c' :: 'l' :: 'a' :: 's' :: 's' :: t)
  rw [h1 _ _ (by decide), h1 _ _ (by decide), h1 _ _ (by decide),
    h1 _ _ (by decide), h1 _ _ (by decide)]
  omega

theorem resplit_shape (cs : List Char) :
    (boundaryStop cs < cs.length ∧
      ∃ tail, resplit cs = cs.take (boundaryStop cs) :: tail) ∨
    (¬ boundaryStop cs < cs.length ∧ resplit cs = [cs]) := by
  cases cs with
  | nil =>
    right
    exact ⟨by simp [boundaryStop], rfl⟩
  | cons c rest =>
    have hre : resplit (c :: rest) =
        if boundaryStop (c :: rest) < (c :: rest).length then
          List.take (boundaryStop (c :: rest)) (c :: rest) ::
            resplitFuel rest.length
              (List.drop (boundaryStop (c :: rest) + 5) (c :: rest))
        else [c :: rest] := by
      have h0 : resplit (c :: rest) =
          resplitFuel (rest.length + 1) (c :: rest) := rfl
      rw [h0, resplitFuel]
    by_cases hb : boundaryStop (c :: rest) < (c :: rest).length
    · left
      rw [hre, if_pos hb]
      exact ⟨hb, _, rfl⟩
    · right
      rw [hre, if_neg hb]
      exact ⟨hb, rfl⟩

theorem resplit_head_class {t block : List Char}
    (hblock : block = kwClass ++ t) :
    ∃ s, (resplit block).headD [] = kwClass ++ s := by
  subst hblock
  rcases resplit_shape (kwClass ++ t) with ⟨hlt, tail, htail⟩ | ⟨-, heq⟩
  · rw [htail]
    simp only [List.headD_cons]
    have h5 : 5 ≤ boundaryStop (kwClass ++ t) := boundaryStop_class_ge t
    refine ⟨t.take (boundaryStop (kwClass ++ t) - 5), ?_⟩
    rw [List.take_append_eq_append_take, List.take_of_length_le h5]
    rfl
  · rw [heq]
    exact ⟨t, rfl⟩

theorem packGo_mem_starts {m : Nat} {hdr : List Char} :
    ∀ (parts : List (List Char)) (rtail : List (List Char))
      (c : List Char), c ∈ packGo m hdr parts (hdr :: rtail) →
      ∃ rest, c = hdr ++ rest := by
  intro parts
  induction parts with
  | nil =>
    intro rtail c hc
    rw [packGo] at hc
    rw [List.mem_singleton] at hc
    obtain ⟨tl, htl⟩ := joinNL_cons_decomp hdr rtail
    exact ⟨tl, by rw [hc, htl]⟩
  | cons p prest ih =>
    intro rtail c hc
    rw [packGo] at hc
    split at hc
    · rcases List.mem_cons.mp hc with hc1 | hc2
      · obtain ⟨tl, htl⟩ := joinNL_cons_decomp hdr rtail
        exact ⟨tl, by rw [hc1, htl]⟩
      · exact ih [p] c hc2
    · rw [List.cons_append] at hc
      exact ih (rtail ++ [p]) c hc

theorem split_large_block_mem_starts {m : Nat} {block c : List Char}
    (hc : c ∈ SchemaClassChunker.split_large_block m block) :
    ∃ rest, c = (resplit block).headD [] ++ rest := by
  rw [SchemaClassChunker.split_large_block] at hc
  exact packGo_mem_starts _ [] c hc

theorem chunkL_starts_class {ms : Option Nat} {text c : List Char}
    (hc : c ∈ chunkL ms text) : ∃ rest, c = kwClass ++ rest := by
  rw [chunkL] at hc
  rw [List.mem_flatMap] at hc
  obtain ⟨block, hblock, hcin⟩ := hc
  obtain ⟨⟨h, hmh⟩, -⟩ := scan_strip_clean hblock
  obtain ⟨w, n, r, hparts, -, -, -, -, -⟩ := matchHeader_eq_some_iff.mp hmh
  have hstart : pyStrip block = kwClass ++ (w ++ n ++ kwBase ++ r) := by
    rw [hparts]
    simp [List.append_assoc]
  rcases ms with _ | m
  · simp only at hcin
    rw [List.mem_singleton] at hcin
    exact ⟨_, by rw [hcin, hstart]⟩
  · simp only at hcin
    split at hcin
    · obtain ⟨rest, hrest⟩ := split_large_block_mem_starts hcin
      obtain ⟨s, hs⟩ := resplit_head_class hstart
      exact ⟨s ++ rest, by rw [hrest, hs, List.append_assoc]⟩
    · rw [List.mem_singleton] at hcin
      exact ⟨_, by rw [hcin, hstart]⟩

/- ### Shared chunker equalities -/

theorem chunk_zero_eq (t : String) :
    SchemaClassChunker.chunk (some 0) t = SchemaClassChunker.chunk none t := by
  rw [SchemaClassChunker.chunk, SchemaClassChunker.chunk, chunkL_zero]

theorem chunkL_joinNL_strips (cs : List Char) :
    chunkL none (joinNL ((scan cs).map pyStrip)) = (scan cs).map pyStrip := by
  have hclean : ∀ b ∈ (scan cs).map pyStrip, Clean b := by
    intro b hb
    obtain ⟨m, hm, h⟩ := List.mem_map.mp hb
    exact h ▸ scan_strip_clean hm
  rw [chunkL_none, scan_joinNL _ hclean, List.map_map]
  exact List.map_congr_left fun m hm => pyStrip_idem_of_scan hm

theorem toList_newlineJoin (L : List (List Char)) :
    (newlineJoin (L.map fun l => String.mk l)).toList = joinNL L := by
  rw [newlineJoin]
  show joinNL ((L.map fun l => String.mk l).map String.toList) = joinNL L
  rw [List.map_map]
  congr 1
  exact (List.map_congr_left fun l _ => rfl).trans (List.map_id L)

/- ### Claim C8: idempotency of chunking -/

/-- C8 (amended): chunking is idempotent when `max_chunk_size` is `None` or
`0` (the configurations in which no splitting occurs): re-chunking the
newline-rejoined chunks reproduces the same chunk sequence.  With a nonzero
`max_chunk_size` the property fails (see the counterexample): splitting
discards the 4-space member indentation and can leave trailing whitespace
inside a sub-chunk, which the second pass strips. -/
theorem C8_chunk_idempotent_no_split (t : String) :
    SchemaClassChunker.chunk none
        (newlineJoin (SchemaClassChunker.chunk none t)) =
      SchemaClassChunker.chunk none t ∧
    SchemaClassChunker.chunk (some 0)
        (newlineJoin (SchemaClassChunker.chunk (some 0) t)) =
      SchemaClassChunker.chunk (some 0) t := by
  have key : ∀ s : String, SchemaClassChunker.chunk none
      (newlineJoin (SchemaClassChunker.chunk none s)) =
      SchemaClassChunker.chunk none s := by
    intro s
    show ((chunkL none ((newlineJoin ((chunkL none s.toList).map
        fun l => String.mk l)).toList)).map fun l => String.mk l) =
      (chunkL none s.toList).map fun l => String.mk l
    congr 1
    calc chunkL none ((newlineJoin ((chunkL none s.toList).map
          fun l => String.mk l)).toList)
        = chunkL none (joinNL (chunkL none s.toList)) := by
          rw [toList_newlineJoin]
      _ = chunkL none (joinNL ((scan s.toList).map pyStrip)) := by
          rw [chunkL_none s.toList]
      _ = (scan s.toList).map pyStrip := chunkL_joinNL_strips s.toList
      _ = chunkL none s.toList := (chunkL_none s.toList).symm
  refine ⟨key t, ?_⟩
  rw [chunk_zero_eq, chunk_zero_eq]
  exact key t

/-- C8 counterexample (to the unamended claim, over every configuration):
with `max_chunk_size = 12`, re-chunking the newline-rejoined chunks of
`"class A(Base):\n    x = 9  \n    y = 2"` yields a different sequence —
the trailing two spaces of the member `x = 9  ` survive the first pass
inside a sub-chunk but are stripped by the second pass. -/
theorem C8_counterexample :
    SchemaClassChunker.chunk (some 12)
        (newlineJoin (SchemaClassChunker.chunk (some 12)
          "class A(Base):\n    x = 9  \n    y = 2")) ≠
      SchemaClassChunker.chunk (some 12)
        "class A(Base):\n    x = 9  \n    y = 2" := by
  decide

/- ### Claim C6: chunker edge cases -/

/-- C6 (amended): for the empty input `SchemaClassChunker.chunk` returns the
empty sequence (for every configuration); and a span of text with no
detected entity header is dropped rather than kept: every chunk that does
appear in the output begins with the class-start marker `class`. -/
theorem C6_empty_and_headerless_dropped :
    (∀ ms : Option Nat, SchemaClassChunker.chunk ms "" = []) ∧
    (∀ (ms : Option Nat) (t c : String), c ∈ SchemaClassChunker.chunk ms t →
      ∃ rest, c.toList = kwClass ++ rest) := by
  constructor
  · intro ms
    rfl
  · intro ms t c hc
    rw [SchemaClassChunker.chunk] at hc
    obtain ⟨l, hl, hcl⟩ := List.mem_map.mp hc
    obtain ⟨rest, hrest⟩ := chunkL_starts_class hl
    exact ⟨rest, by rw [← hcl, hrest]; rfl⟩

/-- C6 counterexample (to the unamended claim): the input `"import os"`
contains no entity header, and instead of appearing as its own single
chunk it is dropped — the chunker returns the empty sequence; likewise the
headerless prefix `"x = 1\n"` before a class marker does not appear in the
output. -/
theorem C6_counterexample :
    SchemaClassChunker.chunk none "import os" = [] ∧
    ("import os" : String) ≠ "" ∧
    SchemaClassChunker.chunk none "x = 1\nclass A(Base):\n    y" =
      ["class A(Base):\n    y"] := by
  refine ⟨by decide, by decide, by decide⟩

/-- C6 witness: the amended theorem applied to a concrete chunk of a
concrete input. -/
theorem C6_witness :
    ("class A(Base):\n    y = 1" : String) ∈
      SchemaClassChunker.chunk none "class A(Base):\n    y = 1" ∧
    ∃ rest, ("class A(Base):\n    y = 1" : String).toList =
      kwClass ++ rest := by
  refine ⟨by decide, ?_⟩
  exact C6_empty_and_headerless_dropped.2 none "class A(Base):\n    y = 1"
    "class A(Base):\n    y = 1" (by decide)

/- ### Claim C7: max-chunk-size splitting -/

/-- C7: with `max_chunk_size` `None` or `0` every matched entity span
becomes exactly one whitespace-trimmed chunk regardless of length; when a
limit is set and a span exceeds it, every produced sub-chunk begins with
the entity header (the first `re.split` part), and members are packed
greedily: the running sub-chunk is closed exactly when adding the next
member would exceed the limit, and the next sub-chunk restarts with the
header. -/
theorem C7_max_size_splitting :
    (∀ t : String, SchemaClassChunker.chunk none t =
      (scan t.toList).map fun b => String.mk (pyStrip b)) ∧
    (∀ t : String, SchemaClassChunker.chunk (some 0) t =
      SchemaClassChunker.chunk none t) ∧
    (∀ (m : Nat) (block c : List Char),
      c ∈ SchemaClassChunker.split_large_block m block →
      ∃ rest, c = (resplit block).headD [] ++ rest) ∧
    (∀ (m : Nat) (hdr : List Char) (running : List (List Char)),
      packGo m hdr [] running = [joinNL running]) ∧
    (∀ (m : Nat) (hdr p : List Char)
      (prest running : List (List Char)),
      packGo m hdr (p :: prest) running =
        if m < (running.map List.length).sum + p.length then
          joinNL running :: packGo m hdr prest [hdr, p]
        else packGo m hdr prest (running ++ [p])) := by
  refine ⟨?_, chunk_zero_eq, ?_, ?_, ?_⟩
  · intro t
    rw [SchemaClassChunker.chunk, chunkL_none, List.map_map]
    rfl
  · intro m block c hc
    exact split_large_block_mem_starts hc
  · intro m hdr running
    rfl
  · intro m hdr p prest running
    rfl

/-- C7 witness: the header-prefix property applied to a concrete sub-chunk
produced by splitting a concrete oversized block with limit 12. -/
theorem C7_witness :
    ("class A(Base):\nx = 9".toList ∈
      SchemaClassChunker.split_large_block 12
        "class A(Base):\n    x = 9".toList) ∧
    ∃ rest, "class A(Base):\nx = 9".toList =
      (resplit "class A(Base):\n    x = 9".toList).headD [] ++ rest := by
  refine ⟨by decide, ?_⟩
  exact C7_max_size_splitting.2.2.1 12 "class A(Base):\n    x = 9".toList
    "class A(Base):\nx = 9".toList (by decide)
